import Mathlib

/-!
Shallow embedding of the pure text-analysis core of `src/ml_service/main.py`
(Cyber Crime ML service): text normalisation, entity-span reduction, platform
and amount detection, crime-type classification and keyword severity scoring.

Strings are modelled as Lean `String` / `List Char`.  Python's Unicode
character classes are modelled over the code points this service meets:
`\s` / `str.strip` whitespace as `isPySpace` (ASCII whitespace, the C0
separators, NEL, NBSP and the standard Unicode space code points), `\d` as
ASCII digits (`Char.isDigit`), `\w` as ASCII alphanumerics plus underscore.
Python `float` of a comma-stripped digit group is exact at these magnitudes,
so amounts are modelled as `Nat`.
-/

/-- Lower-casing of one character, modelling `str.lower` on the ASCII range
(the only range the keyword tables and regexes distinguish). -/
def lc (c : Char) : Char := c.toLower

/-- Lower-casing of a character list, modelling `text.lower()`. -/
def lcL (l : List Char) : List Char := l.map lc

/-- Python's substring test `needle in haystack`. -/
def hasSub (needle : List Char) : List Char → Bool
  | [] => needle.isEmpty
  | c :: rest => needle.isPrefixOf (c :: rest) || hasSub needle rest

/-- Whitespace class shared by Python's `\s` and `str.strip` on the code
points relevant here: TAB..CR, FS..US, space, NEL, NBSP, Ogham space, the
U+2000..U+200A spaces, LS, PS, NNBSP, MMSP and the ideographic space. -/
def isPySpace (c : Char) : Bool :=
  (9 ≤ c.toNat && c.toNat ≤ 13) || c.toNat = 32 ||
  (28 ≤ c.toNat && c.toNat ≤ 31) || c.toNat = 133 || c.toNat = 160 ||
  c.toNat = 5760 || (8192 ≤ c.toNat && c.toNat ≤ 8202) ||
  c.toNat = 8232 || c.toNat = 8233 || c.toNat = 8239 || c.toNat = 8287 ||
  c.toNat = 12288

/-- `text.replace(" ", " ")` on one character. -/
def repNbsp (c : Char) : Char := if c.toNat = 160 then ' ' else c

/-- `re.sub(r"\s+", " ", text)`: every maximal whitespace run becomes one
space.  `prevSpace` records whether the previous character was whitespace. -/
def collapseGo (prevSpace : Bool) : List Char → List Char
  | [] => []
  | c :: rest =>
    if isPySpace c then
      if prevSpace then collapseGo true rest else ' ' :: collapseGo true rest
    else c :: collapseGo false rest

/-- Drop trailing whitespace (the right half of `str.strip()`). -/
def dropTrail : List Char → List Char
  | [] => []
  | c :: rest =>
    match dropTrail rest with
    | [] => if isPySpace c then [] else [c]
    | r => c :: r

/-- `str.strip()`: drop leading and trailing whitespace. -/
def stripWs (l : List Char) : List Char := dropTrail (l.dropWhile isPySpace)

/-- `clean_text` (main.py:40-43): replace NBSP by a space, collapse
whitespace runs to single spaces, strip the ends. -/
def clean_text (s : String) : String :=
  String.mk (stripWs (collapseGo false (s.data.map repNbsp)))

/-! ## Entity extraction (main.py:78-110) -/

/-- One aggregated span from the NER pipeline: its `entity_group` tag and
its `word` surface text. -/
structure EntitySpan where
  group : String
  word : String
deriving DecidableEq

/-- The four-slot result of `extract_entities`. -/
structure EntityResult where
  name : Option String
  location : Option String
  date : Option String
  organization : Option String
deriving DecidableEq

/-- `str(ent.get("word", "")).replace("##", "")`: delete every (left-to-right,
non-overlapping) occurrence of `##`. -/
def removeHH : List Char → List Char
  | '#' :: '#' :: rest => removeHH rest
  | c :: rest => c :: removeHH rest
  | [] => []

/-- The span text with continuation markers stripped. -/
def spanWord (e : EntitySpan) : String := String.mk (removeHH e.word.data)

/-- Python truthiness of `data[k]` for an optional-string slot:
falsy when `None` or the empty string. -/
def optFalsy : Option String → Bool
  | none => true
  | some s => s == ""

/-- The first loop of `extract_entities`: accumulate consecutive `PER` spans
in `toks`; at a non-`PER` span commit `" ".join(toks)` as the name when the
buffer is non-empty and no (truthy) name is committed yet; at the end of the
sequence do the same final commit. -/
def nameScan : List EntitySpan → List String → Option String → Option String
  | [], toks, nm =>
    if !toks.isEmpty && optFalsy nm then some (String.intercalate " " toks) else nm
  | e :: rest, toks, nm =>
    if e.group = "PER" then nameScan rest (toks ++ [spanWord e]) nm
    else if !toks.isEmpty && optFalsy nm then
      nameScan rest [] (some (String.intercalate " " toks))
    else nameScan rest toks nm

/-- The second loop of `extract_entities`: first-occurrence slots for
location (`LOC`/`GPE`), date and organization. -/
def otherScan : List EntitySpan → Option String → Option String → Option String →
    Option String × Option String × Option String
  | [], loc, dt, org => (loc, dt, org)
  | e :: rest, loc, dt, org =>
    if (e.group = "LOC" || e.group = "GPE") && optFalsy loc then
      otherScan rest (some (spanWord e)) dt org
    else if e.group = "DATE" && optFalsy dt then
      otherScan rest loc (some (spanWord e)) org
    else if e.group = "ORG" && optFalsy org then
      otherScan rest loc dt (some (spanWord e))
    else otherScan rest loc dt org

/-- `extract_entities` (main.py:78-110), as a function of the span sequence
the NER pipeline returned for the text. -/
def extract_entities (spans : List EntitySpan) : EntityResult :=
  let other := otherScan spans none none none
  { name := nameScan spans [] none
    location := other.1
    date := other.2.1
    organization := other.2.2 }

/-! ## Platform detection (main.py:113-115)

`re.search(r"\b(PhonePe|Paytm|Google Pay|GPay|BHIM|UPI|SBI|HDFC|ICICI|Axis)\b",
text, re.I)` and `m.group(1)`: scan positions left to right; at each position
try the alternatives in pattern order, each matched case-insensitively and
bracketed by word boundaries; return the matched text as it stands in the
input. -/

/-- Python's `\w` on the ASCII range: letters, digits, underscore. -/
def wordChar (c : Char) : Bool := c.isAlphanum || c = '_'

/-- The platform vocabulary, in the alternation order of the pattern. -/
def platformVocab : List (List Char) :=
  ["PhonePe".data, "Paytm".data, "Google Pay".data, "GPay".data, "BHIM".data,
   "UPI".data, "SBI".data, "HDFC".data, "ICICI".data, "Axis".data]

/-- Case-insensitive literal match of `pat` against a prefix of `s`. -/
def matchCI : List Char → List Char → Bool
  | [], _ => true
  | _ :: _, [] => false
  | p :: ps, c :: cs => (lc p = lc c) && matchCI ps cs

/-- The `\b` after the match: end of input, or a non-word character next
(every vocabulary word ends in a word character). -/
def endBoundary : List Char → Bool
  | [] => true
  | c :: _ => !wordChar c

/-- Try each vocabulary word at the current position, in pattern order;
on success return the matched input characters. -/
def tryWordsAt : List (List Char) → List Char → Option (List Char)
  | [], _ => none
  | w :: ws, s =>
    if matchCI w s && endBoundary (s.drop w.length) then some (s.take w.length)
    else tryWordsAt ws s

/-- One position of the search.  Every vocabulary word starts with a word
character, so the leading `\b` fails whenever the previous character was a
word character. -/
def tryAt (prevWord : Bool) (s : List Char) : Option (List Char) :=
  if prevWord then none else tryWordsAt platformVocab s

/-- The left-to-right scan of `re.search`. -/
def scanPlatform (prevWord : Bool) : List Char → Option (List Char)
  | [] => none
  | c :: rest =>
    match tryAt prevWord (c :: rest) with
    | some m => some m
    | none => scanPlatform (wordChar c) rest

/-- `detect_platform` (main.py:113-115). -/
def detect_platform (text : String) : Option String :=
  (scanPlatform false text.data).map String.mk

/-- The `\b` before a candidate match, generalised over the scan state:
with no preceding character the boundary holds when the scan's
previous-character flag is clear; otherwise the last preceding character
must not be a word character. -/
def boundaryLP (prev : Bool) (pre : List Char) : Bool :=
  match pre.getLast? with
  | none => !prev
  | some c => !wordChar c

/-- A whole-word, case-insensitive occurrence of some vocabulary word
somewhere in `s`. -/
def PlatformOccurs (s : List Char) : Prop :=
  ∃ pre mid post w, s = pre ++ mid ++ post ∧ w ∈ platformVocab ∧
    lcL mid = lcL w ∧ boundaryLP false pre = true ∧ endBoundary post = true

/-! ## Amount extraction (main.py:118-122)

`re.search(r"(?:rs\.?|₹)\s*(\d{1,3}(?:,\d{3})*)", text, re.I)`, then
`float(m.group(1).replace(",", ""))`.  The pattern is deterministic: the
optional dot, the whitespace star and the greedy digit counts never need
backtracking because no later pattern element can succeed where the greedy
choice failed. -/

/-- The currency marker `(?:rs\.?|₹)` at the current position; returns the
input after the marker.  `rs` is case-insensitive, the optional dot is
consumed when present. -/
def matchMarker : List Char → Option (List Char)
  | c1 :: c2 :: rest =>
    if lc c1 = 'r' && lc c2 = 's' then
      some (if rest.head? = some '.' then rest.tail else rest)
    else if c1 = '₹' then some (c2 :: rest)
    else none
  | [c1] => if c1 = '₹' then some [] else none
  | [] => none

/-- `\d{1,3}` greedily: up to `fuel` leading ASCII digits and the rest. -/
def grabDigits : Nat → List Char → List Char × List Char
  | 0, s => ([], s)
  | _ + 1, [] => ([], [])
  | n + 1, c :: rest =>
    if c.isDigit then
      ((grabDigits n rest).1.cons c, (grabDigits n rest).2)
    else ([], c :: rest)

/-- `(?:,\d{3})*` greedily: comma-led groups of exactly three digits. -/
def grabGroups : List Char → List Char × List Char
  | [] => ([], [])
  | c :: rest =>
    if c = ',' then
      match rest with
      | a :: b :: d :: rest2 =>
        if a.isDigit && b.isDigit && d.isDigit then
          ((grabGroups rest2).1.cons d |>.cons b |>.cons a |>.cons c,
           (grabGroups rest2).2)
        else ([], c :: rest)
      | _ => ([], c :: rest)
    else ([], c :: rest)

/-- The whole amount pattern anchored at the current position; returns the
capture group (digits, commas included). -/
def matchAmountAt (s : List Char) : Option (List Char) :=
  match matchMarker s with
  | none => none
  | some afterMarker =>
    let afterWs := afterMarker.dropWhile isPySpace
    match grabDigits 3 afterWs with
    | ([], _) => none
    | (ds, rest) => some (ds ++ (grabGroups rest).1)

/-- The left-to-right scan of `re.search` for the amount pattern. -/
def scanAmount : List Char → Option (List Char)
  | [] => none
  | c :: rest =>
    match matchAmountAt (c :: rest) with
    | some g => some g
    | none => scanAmount rest

/-- Numeric value of an ASCII digit string. -/
def digitsToNat (l : List Char) : Nat :=
  l.foldl (fun acc c => acc * 10 + (c.toNat - 48)) 0

/-- `extract_amount` (main.py:118-122); the value of
`float(group.replace(",", ""))` as a natural number (the group is a pure
digit string once commas are stripped, and `float` is exact there). -/
def extract_amount (text : String) : Option Nat :=
  (scanAmount text.data).map (fun g => digitsToNat (g.filter (fun c => c ≠ ',')))

/-! ## Crime classification (main.py:125-146) -/

/-- Keywords of the `Cyber Harassment` rule. -/
def harassKeys : List String :=
  ["harassment", "blackmail", "sextortion", "stalking", "threat"]

/-- Keywords of the `Robbery` rule. -/
def robberyKeys : List String := ["robbery", "stolen", "theft", "snatched"]

/-- Keywords of the `Bank Fraud` rule. -/
def bankKeys : List String :=
  ["bank fraud", "upi", "phonepe", "paytm", "gpay", "google pay", "bhim",
   "otp", "fraud", "scam"]

/-- Keywords of the `Phishing` rule. -/
def phishKeys : List String :=
  ["phishing", "fake link", "kyc", "verify", "login", "password"]

/-- The `Acid Attack` rule's condition on the lower-cased text. -/
def acidRule (lower : List Char) : Bool :=
  hasSub "acid attack".data lower ||
    (hasSub "acid".data lower && hasSub "attack".data lower)

/-- `any(k in lower for k in keys)`. -/
def anyKey (keys : List String) (lower : List Char) : Bool :=
  keys.any (fun k => hasSub k.data lower)

/-- `classify_cybercrime_type` (main.py:125-146): ordered rule cascade,
first match wins. -/
def classify_cybercrime_type (text : String) : String :=
  let lower := lcL text.data
  if acidRule lower then "Acid Attack"
  else if anyKey harassKeys lower then "Cyber Harassment"
  else if anyKey robberyKeys lower then "Robbery"
  else if anyKey bankKeys lower then "Bank Fraud"
  else if anyKey phishKeys lower then "Phishing"
  else "Online Fraud"

/-! ## Severity scoring (main.py:149-174) -/

/-- The `high` keyword tier. -/
def highKeys : List String :=
  ["harassment", "acid attack", "blackmail", "rape", "assault", "threat"]

/-- The `mid` keyword tier. -/
def midKeys : List String := ["robbery", "stolen", "theft"]

/-- The `second_high` keyword tier. -/
def secondHighKeys : List String :=
  ["bank fraud", "upi", "phonepe", "paytm", "gpay", "google pay", "bhim",
   "otp", "phishing", "fraud", "scam"]

/-- The result dictionary of `severity_from_keywords`. -/
structure SeverityResult where
  severity : String
  severity_score : Nat
  matched_keywords : List String
deriving DecidableEq

/-- `contains_any`: the first keyword of the tier found in the lower-cased
text (the one appended to `matched`), if any. -/
def firstKey (keys : List String) (lower : List Char) : Option String :=
  keys.find? (fun k => hasSub k.data lower)

/-- `severity_from_keywords` (main.py:149-174): tiers tried in the order
high, second_high, mid; the winning tier contributes its first matching
keyword as the sole entry of `matched_keywords`. -/
def severity_from_keywords (text : String) : SeverityResult :=
  let lower := lcL text.data
  match firstKey highKeys lower with
  | some k => ⟨"high", 90, [k]⟩
  | none =>
    match firstKey secondHighKeys lower with
    | some k => ⟨"medium", 70, [k]⟩
    | none =>
      match firstKey midKeys lower with
      | some k => ⟨"medium", 50, [k]⟩
      | none => ⟨"low", 30, []⟩

/-! ## The analyze pipeline (main.py:201-214), after text extraction -/

/-- The JSON body assembled by `analyze`. -/
structure AnalysisResponse where
  text : String
  entities : EntityResult
  crime_type : String
  category : String
  platform : Option String
  amount : Option Nat
  severity : String
  severity_score : Nat
  matched_keywords : List String
deriving DecidableEq

/-- The all-null entities dictionary of the empty-text branch. -/
def emptyEntities : EntityResult := ⟨none, none, none, none⟩

/-- `analyze` after text extraction (main.py:201-214): clean the text, run
the NER-backed entity extractor, platform and amount detectors only when the
cleaned text is non-empty, and always run the classifier and the severity
scorer.  The NER model is the function argument `ner`. -/
def analyzeCore (ner : String → List EntitySpan) (extracted : String) :
    AnalysisResponse :=
  let text := clean_text extracted
  let sev := severity_from_keywords text
  { text := text
    entities := if text = "" then emptyEntities else extract_entities (ner text)
    crime_type := classify_cybercrime_type text
    category := classify_cybercrime_type text
    platform := if text = "" then none else detect_platform text
    amount := if text = "" then none else extract_amount text
    severity := sev.severity
    severity_score := sev.severity_score
    matched_keywords := sev.matched_keywords }

/-! ## Normal form of `clean_text` output -/

/-- The normal form the collapse pass establishes: every whitespace
character is a plain space and never follows another whitespace character
(`prev` says whether the preceding character was whitespace). -/
def goodRun : Bool → List Char → Bool
  | _, [] => true
  | prev, c :: rest =>
    if isPySpace c then (c == ' ' && !prev) && goodRun true rest
    else goodRun false rest

theorem goodRun_cons (prev : Bool) (c : Char) (rest : List Char) :
    goodRun prev (c :: rest) =
      if isPySpace c = true then (c == ' ' && !prev) && goodRun true rest
      else goodRun false rest := rfl

theorem goodRun_false_of_true {l : List Char} (h : goodRun true l = true) :
    goodRun false l = true := by
  cases l with
  | nil => rfl
  | cons c rest =>
    by_cases hc : isPySpace c = true
    · simp [goodRun, hc] at h
    · simpa [goodRun, hc] using h

theorem collapseGo_id : ∀ (prev : Bool) (l : List Char),
    goodRun prev l = true → collapseGo prev l = l := by
  intro prev l
  induction l generalizing prev with
  | nil => intro _; rfl
  | cons c rest ih =>
    intro h
    by_cases hc : isPySpace c = true
    · simp only [goodRun, hc, if_true, Bool.and_eq_true, beq_iff_eq,
        Bool.not_eq_true'] at h
      obtain ⟨⟨hsp, hprev⟩, hrest⟩ := h
      subst hsp hprev
      simp [collapseGo, hc, ih true hrest]
    · simp only [goodRun, hc, if_false] at h
      simp [collapseGo, hc, ih false h]

theorem collapseGo_good : ∀ (prev : Bool) (l : List Char),
    goodRun prev (collapseGo prev l) = true := by
  intro prev l
  induction l generalizing prev with
  | nil => rfl
  | cons c rest ih =>
    by_cases hc : isPySpace c = true
    · cases prev with
      | true => simpa [collapseGo, hc] using ih true
      | false =>
        have : isPySpace ' ' = true := by decide
        simpa [collapseGo, hc, goodRun, this] using ih true
    · simpa [collapseGo, hc, goodRun] using ih false

theorem dropWhile_good {l : List Char} (h : goodRun false l = true) :
    goodRun false (l.dropWhile isPySpace) = true := by
  cases l with
  | nil => rfl
  | cons c rest =>
    by_cases hc : isPySpace c = true
    · simp only [goodRun, hc, if_true, Bool.and_eq_true, beq_iff_eq,
        Bool.not_eq_true'] at h
      obtain ⟨⟨hsp, -⟩, hrest⟩ := h
      rw [List.dropWhile_cons, if_pos hc]
      cases rest with
      | nil => rfl
      | cons d rest2 =>
        by_cases hd : isPySpace d = true
        · simp [goodRun, hd] at hrest
        · rw [List.dropWhile_cons, if_neg hd]
          exact goodRun_false_of_true hrest
    · rw [List.dropWhile_cons, if_neg hc]
      simpa [goodRun, hc] using h

theorem head_dropWhile {l : List Char} {c : Char}
    (h : (l.dropWhile isPySpace).head? = some c) : isPySpace c = false := by
  induction l with
  | nil => simp at h
  | cons d rest ih =>
    by_cases hd : isPySpace d = true
    · rw [List.dropWhile_cons, if_pos hd] at h
      exact ih h
    · rw [List.dropWhile_cons, if_neg hd] at h
      simp only [List.head?_cons, Option.some.injEq] at h
      subst h
      simpa using hd

theorem dropTrail_good : ∀ (prev : Bool) (l : List Char),
    goodRun prev l = true → goodRun prev (dropTrail l) = true := by
  intro prev l
  induction l generalizing prev with
  | nil => intro _; rfl
  | cons c rest ih =>
    intro h
    rw [goodRun_cons] at h
    by_cases hc : isPySpace c = true
    · rw [if_pos hc] at h
      simp only [Bool.and_eq_true, beq_iff_eq, Bool.not_eq_true'] at h
      obtain ⟨⟨hsp, hprev⟩, hrest⟩ := h
      subst hsp; subst hprev
      have ihr := ih true hrest
      rw [dropTrail]
      cases hdt : dropTrail rest with
      | nil =>
        show goodRun false (if isPySpace ' ' = true then [] else [' ']) = true
        rw [if_pos hc]
        rfl
      | cons d r2 =>
        rw [hdt] at ihr
        show goodRun false (' ' :: d :: r2) = true
        rw [goodRun_cons, if_pos hc]
        simp [ihr]
    · rw [if_neg hc] at h
      have ihr := ih false h
      rw [dropTrail]
      cases hdt : dropTrail rest with
      | nil =>
        show goodRun prev (if isPySpace c = true then [] else [c]) = true
        rw [if_neg hc]
        rw [goodRun_cons, if_neg hc]
        rfl
      | cons d r2 =>
        rw [hdt] at ihr
        show goodRun prev (c :: d :: r2) = true
        rw [goodRun_cons, if_neg hc]
        exact ihr

theorem head_dropTrail {l : List Char} {c : Char}
    (h : (dropTrail l).head? = some c) : l.head? = some c := by
  cases l with
  | nil => simp [dropTrail] at h
  | cons d rest =>
    rw [dropTrail] at h
    cases hdt : dropTrail rest with
    | nil =>
      rw [hdt] at h
      by_cases hd : isPySpace d = true
      · simp [hd] at h
      · simp only [hd, Bool.false_eq_true, if_false, List.head?_cons,
          Option.some.injEq] at h
        simp [h]
    | cons e r2 =>
      rw [hdt] at h
      simp only [List.head?_cons, Option.some.injEq] at h
      simp [h]

theorem dropWhile_id_of_head {l : List Char}
    (h : ∀ c, l.head? = some c → isPySpace c = false) :
    l.dropWhile isPySpace = l := by
  cases l with
  | nil => rfl
  | cons c rest =>
    rw [List.dropWhile_cons, if_neg]
    simp [h c rfl]

theorem dropTrail_idem : ∀ l : List Char, dropTrail (dropTrail l) = dropTrail l := by
  intro l
  induction l with
  | nil => rfl
  | cons c rest ih =>
    rw [dropTrail]
    cases hdt : dropTrail rest with
    | nil =>
      by_cases hc : isPySpace c = true
      · simp [hc, dropTrail]
      · simp [hc, dropTrail]
    | cons d r2 =>
      rw [hdt] at ih
      show dropTrail (c :: d :: r2) = c :: d :: r2
      rw [dropTrail, ih]

theorem map_repNbsp_id : ∀ (prev : Bool) (l : List Char),
    goodRun prev l = true → l.map repNbsp = l := by
  intro prev l
  induction l generalizing prev with
  | nil => intro _; rfl
  | cons c rest ih =>
    intro h
    by_cases hc : isPySpace c = true
    · simp only [goodRun, hc, if_true, Bool.and_eq_true, beq_iff_eq,
        Bool.not_eq_true'] at h
      obtain ⟨⟨hsp, -⟩, hrest⟩ := h
      subst hsp
      simpa [repNbsp] using ih true hrest
    · simp only [goodRun, hc, if_false] at h
      have hna : c.toNat ≠ 160 := by
        intro he
        have : isPySpace c = true := by simp [isPySpace, he]
        exact absurd this (by simp [hc])
      simpa [repNbsp, hna] using ih false h

/-! ## Claim theorems -/

/-- C6: the Text Normalizer is idempotent: for every string `s`,
`clean_text (clean_text s) = clean_text s`. -/
theorem C6_clean_text_idempotent (s : String) :
    clean_text (clean_text s) = clean_text s := by
  have g1 : goodRun false (collapseGo false (s.data.map repNbsp)) = true :=
    collapseGo_good false _
  have g2 := dropWhile_good g1
  have g3 := dropTrail_good false _ g2
  show String.mk (stripWs (collapseGo false
      ((stripWs (collapseGo false (s.data.map repNbsp))).map repNbsp))) =
    String.mk (stripWs (collapseGo false (s.data.map repNbsp)))
  unfold stripWs
  rw [map_repNbsp_id false _ g3, collapseGo_id false _ g3,
    dropWhile_id_of_head (fun c hc => head_dropWhile (head_dropTrail hc)),
    dropTrail_idem]

/-- C1 counterexample: on the span sequence
[PER "John", PER "##son", LOC "Texas"] the extractor joins the person tokens
with a space, so the name is "John son", not "Johnson". -/
theorem C1_counterexample :
    (extract_entities [⟨"PER", "John"⟩, ⟨"PER", "##son"⟩, ⟨"LOC", "Texas"⟩]).name
        = some "John son" ∧
    some "John son" ≠ some "Johnson" := by decide

/-- C1 amended: on [PER "John", PER "##son", LOC "Texas"] the name resolves
to "John son" (consecutive person tokens joined with single spaces, `##`
stripped) and the location to "Texas"; and once a non-empty name is
committed, the scan over any later spans never changes it. -/
theorem C1_amended :
    extract_entities [⟨"PER", "John"⟩, ⟨"PER", "##son"⟩, ⟨"LOC", "Texas"⟩]
        = ⟨some "John son", some "Texas", none, none⟩ ∧
    ∀ (spans : List EntitySpan) (toks : List String) (s : String),
      s ≠ "" → nameScan spans toks (some s) = some s := by
  constructor
  · decide
  · intro spans
    induction spans with
    | nil =>
      intro toks s hs
      have he : (s == "") = false := by simpa using hs
      simp [nameScan, optFalsy, he]
    | cons e rest ih =>
      intro toks s hs
      have he : (s == "") = false := by simpa using hs
      unfold nameScan
      by_cases hg : e.group = "PER"
      · rw [if_pos hg]
        exact ih _ s hs
      · rw [if_neg hg]
        simp only [optFalsy, he, Bool.and_false, Bool.false_eq_true, if_false]
        exact ih _ s hs

/-- C1 witness: the concrete half evaluated, and the no-overwrite half
applied to a committed name "Alice" followed by a later person run. -/
theorem C1_amended_witness :
    extract_entities [⟨"PER", "John"⟩, ⟨"PER", "##son"⟩, ⟨"LOC", "Texas"⟩]
        = ⟨some "John son", some "Texas", none, none⟩ ∧
    nameScan [⟨"LOC", "Texas"⟩, ⟨"PER", "Bob"⟩] ["x"] (some "Alice") = some "Alice" :=
  ⟨C1_amended.1, C1_amended.2 [⟨"LOC", "Texas"⟩, ⟨"PER", "Bob"⟩] ["x"] "Alice" (by decide)⟩

/-- C3 counterexample: "acid attack threat upi" contains both "threat" and
"upi" yet classifies as "Acid Attack", because the Acid Attack rule precedes
the Cyber Harassment rule. -/
theorem C3_counterexample :
    hasSub "threat".data (lcL "acid attack threat upi".data) = true ∧
    hasSub "upi".data (lcL "acid attack threat upi".data) = true ∧
    classify_cybercrime_type "acid attack threat upi" = "Acid Attack" ∧
    ("Acid Attack" : String) ≠ "Cyber Harassment" := by decide

/-- C3 amended: rules are evaluated in the fixed order with the first match
winning, so every text containing "threat" and "upi" that does not satisfy
the Acid Attack rule is classified "Cyber Harassment", and no text
containing "threat" is ever classified "Bank Fraud". -/
theorem C3_amended (t : String)
    (hth : hasSub "threat".data (lcL t.data) = true) :
    (acidRule (lcL t.data) = false →
      classify_cybercrime_type t = "Cyber Harassment") ∧
    classify_cybercrime_type t ≠ "Bank Fraud" := by
  have hhar : anyKey harassKeys (lcL t.data) = true := by
    unfold anyKey
    rw [List.any_eq_true]
    exact ⟨"threat", by decide, hth⟩
  unfold classify_cybercrime_type
  by_cases ha : acidRule (lcL t.data) = true
  · rw [if_pos ha]
    refine ⟨fun hf => absurd ha (by simp [hf]), by decide⟩
  · rw [if_neg ha, if_pos hhar]
    exact ⟨fun _ => rfl, by decide⟩

/-- C3 witness: "threat upi" does not meet the Acid Attack rule and indeed
classifies as "Cyber Harassment", not "Bank Fraud". -/
theorem C3_amended_witness :
    classify_cybercrime_type "threat upi" = "Cyber Harassment" ∧
    classify_cybercrime_type "threat upi" ≠ "Bank Fraud" :=
  ⟨(C3_amended "threat upi" (by decide)).1 (by decide),
   (C3_amended "threat upi" (by decide)).2⟩

/-- C4: a text containing "harassment" (and in particular one also
containing "otp") matches the high tier first: severity "high", score 90,
matched keyword "harassment". -/
theorem C4_severity_high (t : String)
    (hh : hasSub "harassment".data (lcL t.data) = true)
    (_ho : hasSub "otp".data (lcL t.data) = true) :
    severity_from_keywords t = ⟨"high", 90, ["harassment"]⟩ := by
  have hfk : firstKey highKeys (lcL t.data) = some "harassment" := by
    unfold firstKey highKeys
    rw [List.find?_cons_of_pos]
    exact hh
  simp [severity_from_keywords, hfk]

/-- C4 witness at "harassment otp". -/
theorem C4_severity_high_witness :
    severity_from_keywords "harassment otp" = ⟨"high", 90, ["harassment"]⟩ :=
  C4_severity_high "harassment otp" (by decide) (by decide)

/-- C7: on empty extracted text the pipeline returns the all-null entity
record, no platform, no amount, crime type "Online Fraud" and severity
"low"/30, for every NER model (the model is never consulted). -/
theorem C7_empty_short_circuit (ner : String → List EntitySpan) :
    analyzeCore ner "" =
      { text := "", entities := emptyEntities, crime_type := "Online Fraud",
        category := "Online Fraud", platform := none, amount := none,
        severity := "low", severity_score := 30, matched_keywords := [] } := rfl

/-- C9: the classifier's label always lies in the closed six-element set and
the severity tier/score pair always lies in the fixed four-row table. -/
theorem C9_closed_sets (t : String) :
    classify_cybercrime_type t ∈
      ["Acid Attack", "Cyber Harassment", "Robbery", "Bank Fraud",
       "Phishing", "Online Fraud"] ∧
    ((severity_from_keywords t).severity,
      (severity_from_keywords t).severity_score) ∈
      [("high", 90), ("medium", 70), ("medium", 50), ("low", 30)] := by
  constructor
  · unfold classify_cybercrime_type
    by_cases h1 : acidRule (lcL t.data) = true
    · simp [h1]
    · rw [if_neg h1]
      by_cases h2 : anyKey harassKeys (lcL t.data) = true
      · simp [h2]
      · rw [if_neg h2]
        by_cases h3 : anyKey robberyKeys (lcL t.data) = true
        · simp [h3]
        · rw [if_neg h3]
          by_cases h4 : anyKey bankKeys (lcL t.data) = true
          · simp [h4]
          · rw [if_neg h4]
            by_cases h5 : anyKey phishKeys (lcL t.data) = true
            · simp [h5]
            · rw [if_neg h5]
              simp
  · simp only [severity_from_keywords]
    rcases hf1 : firstKey highKeys (lcL t.data) with - | k1
    · rcases hf2 : firstKey secondHighKeys (lcL t.data) with - | k2
      · rcases hf3 : firstKey midKeys (lcL t.data) with - | k3
        · simp
        · simp
      · simp
    · simp

/-! ## Amount-extractor lemmas -/

theorem digit_toNat_bounds {c : Char} (h : c.isDigit = true) :
    48 ≤ c.toNat ∧ c.toNat ≤ 57 := by
  simp [Char.isDigit] at h
  exact h

theorem digit_not_pyspace {c : Char} (h : c.isDigit = true) :
    isPySpace c = false := by
  obtain ⟨h1, h2⟩ := digit_toNat_bounds h
  unfold isPySpace
  simp only [Bool.or_eq_false_iff, Bool.and_eq_false_iff,
    decide_eq_false_iff_not]
  omega

theorem digit_ne_comma {c : Char} (h : c.isDigit = true) : c ≠ ',' := by
  intro he
  subst he
  exact absurd h (by decide)

theorem scanAmount_none : ∀ t : List Char, hasSub ['₹'] t = false →
    hasSub ['r', 's'] (lcL t) = false → scanAmount t = none := by
  intro t
  induction t with
  | nil => intro _ _; rfl
  | cons c rest ih =>
    intro h1 h2
    rw [hasSub, Bool.or_eq_false_iff] at h1
    obtain ⟨h1a, h1b⟩ := h1
    have h2' : lcL (c :: rest) = lc c :: lcL rest := by simp [lcL]
    rw [h2', hasSub, Bool.or_eq_false_iff] at h2
    obtain ⟨h2a, h2b⟩ := h2
    have hr : c ≠ '₹' := by
      intro he
      subst he
      simp [List.isPrefixOf] at h1a
    have hmm : matchMarker (c :: rest) = none := by
      cases rest with
      | nil => simp [matchMarker, hr]
      | cons c2 rest2 =>
        by_cases hca : lc c = 'r'
        · by_cases hcb : lc c2 = 's'
          · exfalso
            simp [lcL, List.isPrefixOf, hca, hcb] at h2a
          · simp [matchMarker, hca, hcb, hr]
        · simp [matchMarker, hca, hr]
    have hma : matchAmountAt (c :: rest) = none := by
      unfold matchAmountAt
      rw [hmm]
    rw [scanAmount, hma]
    exact ih h1b h2b

/-- C5: "Rs. 12,500 was debited" yields 12500, "₹500" yields 500, and a
text containing neither "₹" nor a case-insensitive "rs" yields no amount
(commas are stripped before parsing; only the first match is scanned). -/
theorem C5_extract_amount :
    extract_amount "Rs. 12,500 was debited" = some 12500 ∧
    extract_amount "₹500" = some 500 ∧
    ∀ t : String, hasSub ['₹'] t.data = false →
      hasSub ['r', 's'] (lcL t.data) = false → extract_amount t = none := by
  refine ⟨by decide, by decide, ?_⟩
  intro t h1 h2
  unfold extract_amount
  rw [scanAmount_none t.data h1 h2]
  rfl

/-- C5 witness: a marker-free text yields no amount. -/
theorem C5_extract_amount_witness : extract_amount "hello world" = none :=
  C5_extract_amount.2.2 "hello world" (by decide) (by decide)

/-- C10: when the first currency marker is followed by an unseparated digit
run of four or more digits, only the first three digits form the amount:
concretely "Rs 5000 was debited" yields 500, and in general
"Rs " ++ a ++ b ++ c ++ d ++ rest with digits a b c d yields the value of
the digit string [a, b, c]. -/
theorem C10_truncated_digits :
    extract_amount "Rs 5000 was debited" = some 500 ∧
    ∀ (a b c d : Char) (rest : List Char),
      a.isDigit = true → b.isDigit = true → c.isDigit = true →
      d.isDigit = true →
      extract_amount (String.mk ('R' :: 's' :: ' ' :: a :: b :: c :: d :: rest)) =
        some (digitsToNat [a, b, c]) := by
  refine ⟨by decide, ?_⟩
  intro a b c d rest ha hb hc hd
  have hm : matchMarker ('R' :: 's' :: ' ' :: a :: b :: c :: d :: rest) =
      some (' ' :: a :: b :: c :: d :: rest) := rfl
  have hdw : (' ' :: a :: b :: c :: d :: rest).dropWhile isPySpace =
      a :: b :: c :: d :: rest := by
    rw [List.dropWhile_cons, if_pos (by decide : isPySpace ' ' = true),
      List.dropWhile_cons, if_neg (by simp [digit_not_pyspace ha])]
  have hgd : grabDigits 3 (a :: b :: c :: d :: rest) = ([a, b, c], d :: rest) := by
    simp [grabDigits, ha, hb, hc]
  have hgg : grabGroups (d :: rest) = ([], d :: rest) := by
    unfold grabGroups
    rw [if_neg (digit_ne_comma hd)]
  have hma : matchAmountAt ('R' :: 's' :: ' ' :: a :: b :: c :: d :: rest) =
      some [a, b, c] := by
    unfold matchAmountAt
    rw [hm]
    simp [hdw, hgd, hgg]
  have hsa : scanAmount ('R' :: 's' :: ' ' :: a :: b :: c :: d :: rest) =
      some [a, b, c] := by
    rw [scanAmount, hma]
  unfold extract_amount
  show (scanAmount ('R' :: 's' :: ' ' :: a :: b :: c :: d :: rest)).map _ = _
  rw [hsa]
  simp [List.filter_cons, digit_ne_comma ha, digit_ne_comma hb, digit_ne_comma hc]

/-- C10 witness at "Rs 5000 was debited", via the general digit-run form. -/
theorem C10_truncated_digits_witness :
    extract_amount (String.mk ('R' :: 's' :: ' ' :: '5' :: '0' :: '0' :: '0' ::
      " was debited".data)) = some (digitsToNat ['5', '0', '0']) :=
  C10_truncated_digits.2 '5' '0' '0' '0' " was debited".data
    (by decide) (by decide) (by decide) (by decide)

/-! ## Severity matched-keyword lemmas -/

theorem find_some_split {α : Type} (p : α → Bool) :
    ∀ (l : List α) (a : α), l.find? p = some a →
      p a = true ∧ ∃ pre post, l = pre ++ a :: post ∧ ∀ x ∈ pre, p x = false := by
  intro l
  induction l with
  | nil => intro a h; simp at h
  | cons c rest ih =>
    intro a h
    by_cases hc : p c = true
    · rw [List.find?_cons_of_pos _ hc] at h
      obtain rfl : c = a := by injection h
      exact ⟨hc, [], rest, rfl, by simp⟩
    · rw [List.find?_cons_of_neg _ hc] at h
      obtain ⟨hp, pre, post, heq, hpre⟩ := ih a h
      refine ⟨hp, c :: pre, post, by rw [heq]; rfl, ?_⟩
      intro x hx
      rcases List.mem_cons.mp hx with rfl | hx2
      · exact Bool.not_eq_true _ ▸ (Bool.eq_false_iff.mpr hc)
      · exact hpre x hx2

/-- C8: whenever some severity tier matches, `matched_keywords` is the
one-element list holding the first keyword, in the winning tier's own list
order, that occurs in the lower-cased text. -/
theorem C8_matched_keywords (t : String)
    (hyp : ∃ k ∈ highKeys ++ secondHighKeys ++ midKeys,
        hasSub k.data (lcL t.data) = true) :
    ∃ tier ∈ [highKeys, secondHighKeys, midKeys], ∃ k pre post,
      tier = pre ++ k :: post ∧
      hasSub k.data (lcL t.data) = true ∧
      (∀ k2 ∈ pre, hasSub k2.data (lcL t.data) = false) ∧
      (severity_from_keywords t).matched_keywords = [k] := by
  simp only [severity_from_keywords]
  rcases hf1 : firstKey highKeys (lcL t.data) with - | k1
  · rcases hf2 : firstKey secondHighKeys (lcL t.data) with - | k2
    · rcases hf3 : firstKey midKeys (lcL t.data) with - | k3
      · exfalso
        obtain ⟨k, hk, hsub⟩ := hyp
        unfold firstKey at hf1 hf2 hf3
        rw [List.mem_append] at hk
        rcases hk with hk | hk
        · rw [List.mem_append] at hk
          rcases hk with hk | hk
          · exact absurd hsub (by simpa using List.find?_eq_none.mp hf1 k hk)
          · exact absurd hsub (by simpa using List.find?_eq_none.mp hf2 k hk)
        · exact absurd hsub (by simpa using List.find?_eq_none.mp hf3 k hk)
      · obtain ⟨hp, pre, post, heq, hpre⟩ := find_some_split _ _ _ hf3
        exact ⟨midKeys, by simp, k3, pre, post, heq, hp, hpre, rfl⟩
    · obtain ⟨hp, pre, post, heq, hpre⟩ := find_some_split _ _ _ hf2
      exact ⟨secondHighKeys, by simp, k2, pre, post, heq, hp, hpre, rfl⟩
  · obtain ⟨hp, pre, post, heq, hpre⟩ := find_some_split _ _ _ hf1
    exact ⟨highKeys, by simp, k1, pre, post, heq, hp, hpre, rfl⟩

/-- C8 witness at "otp scam": the second_high tier wins with "otp", the
first of its keywords occurring in the text. -/
theorem C8_matched_keywords_witness :
    ∃ tier ∈ [highKeys, secondHighKeys, midKeys], ∃ k pre post,
      tier = pre ++ k :: post ∧
      hasSub k.data (lcL "otp scam".data) = true ∧
      (∀ k2 ∈ pre, hasSub k2.data (lcL "otp scam".data) = false) ∧
      (severity_from_keywords "otp scam").matched_keywords = [k] :=
  C8_matched_keywords "otp scam" (by decide)

/-! ## Platform-detector lemmas -/

theorem matchCI_take : ∀ (w s : List Char), matchCI w s = true →
    lcL (s.take w.length) = lcL w ∧ w.length ≤ s.length := by
  intro w
  induction w with
  | nil => intro s _; exact ⟨rfl, Nat.zero_le _⟩
  | cons p ps ih =>
    intro s h
    cases s with
    | nil => simp [matchCI] at h
    | cons c cs =>
      rw [matchCI, Bool.and_eq_true] at h
      obtain ⟨h1, h2⟩ := h
      have h1' : lc p = lc c := by simpa using h1
      obtain ⟨ihl, ihlen⟩ := ih cs h2
      constructor
      · rw [List.length_cons, List.take_succ_cons]
        simp only [lcL, List.map_cons]
        simp only [lcL] at ihl
        rw [← h1', ihl]
      · simpa [Nat.succ_le_succ_iff] using ihlen

theorem matchCI_append : ∀ (w mid post : List Char), lcL mid = lcL w →
    matchCI w (mid ++ post) = true := by
  intro w
  induction w with
  | nil => intro mid post _; rfl
  | cons p ps ih =>
    intro mid post h
    cases mid with
    | nil => simp [lcL] at h
    | cons c mid2 =>
      simp only [lcL, List.map_cons, List.cons.injEq] at h
      obtain ⟨h1, h2⟩ := h
      rw [List.cons_append, matchCI]
      simp only [Bool.and_eq_true]
      exact ⟨by simpa using h1.symm, ih mid2 post h2⟩

theorem length_of_lcL {mid w : List Char} (h : lcL mid = lcL w) :
    mid.length = w.length := by
  have := congrArg List.length h
  simpa [lcL] using this

theorem tryWordsAt_some : ∀ (ws : List (List Char)) (s m : List Char),
    tryWordsAt ws s = some m →
    ∃ w ∈ ws, matchCI w s = true ∧ endBoundary (s.drop w.length) = true ∧
      m = s.take w.length := by
  intro ws
  induction ws with
  | nil => intro s m h; simp [tryWordsAt] at h
  | cons w ws2 ih =>
    intro s m h
    unfold tryWordsAt at h
    by_cases hc : (matchCI w s && endBoundary (s.drop w.length)) = true
    · rw [if_pos hc] at h
      rw [Bool.and_eq_true] at hc
      injection h with h
      exact ⟨w, List.mem_cons_self _ _, hc.1, hc.2, h.symm⟩
    · rw [if_neg hc] at h
      obtain ⟨w2, hw2, hrest⟩ := ih s m h
      exact ⟨w2, List.mem_cons_of_mem _ hw2, hrest⟩

theorem tryWordsAt_none : ∀ (ws : List (List Char)) (s : List Char),
    tryWordsAt ws s = none →
    ∀ w ∈ ws, ¬(matchCI w s = true ∧ endBoundary (s.drop w.length) = true) := by
  intro ws
  induction ws with
  | nil => intro s _ w hw; simp at hw
  | cons w0 ws2 ih =>
    intro s h w hw
    unfold tryWordsAt at h
    by_cases hc : (matchCI w0 s && endBoundary (s.drop w0.length)) = true
    · rw [if_pos hc] at h
      exact absurd h (by simp)
    · rw [if_neg hc] at h
      rcases List.mem_cons.mp hw with rfl | hw2
      · intro hcon
        apply hc
        rw [Bool.and_eq_true]
        exact ⟨hcon.1, hcon.2⟩
      · exact ih s h w hw2

theorem boundaryLP_cons (prev : Bool) (c : Char) (pre : List Char) :
    boundaryLP prev (c :: pre) = boundaryLP (wordChar c) pre := by
  cases pre with
  | nil => rfl
  | cons d pre2 =>
    unfold boundaryLP
    rw [List.getLast?_cons_cons]
    rcases hgl : (d :: pre2).getLast? with - | x
    · exact absurd hgl (by simp)
    · rfl

theorem scanPlatform_some : ∀ (s : List Char) (prev : Bool) (m : List Char),
    scanPlatform prev s = some m →
    ∃ pre post w, s = pre ++ m ++ post ∧ w ∈ platformVocab ∧
      lcL m = lcL w ∧ boundaryLP prev pre = true ∧ endBoundary post = true := by
  intro s
  induction s with
  | nil => intro prev m h; simp [scanPlatform] at h
  | cons c rest ih =>
    intro prev m h
    rw [scanPlatform] at h
    cases hta : tryAt prev (c :: rest) with
    | some m2 =>
      rw [hta] at h
      injection h with h
      subst h
      cases prev with
      | true => simp [tryAt] at hta
      | false =>
        rw [tryAt, if_neg (by decide)] at hta
        obtain ⟨w, hw, hmci, hb, hm2⟩ := tryWordsAt_some _ _ _ hta
        subst hm2
        obtain ⟨hl, -⟩ := matchCI_take w _ hmci
        refine ⟨[], (c :: rest).drop w.length, w, ?_, hw, hl, rfl, hb⟩
        rw [List.nil_append, List.take_append_drop]
    | none =>
      rw [hta] at h
      obtain ⟨pre2, post, w, heq, hw, hl, hb, he⟩ := ih (wordChar c) m h
      refine ⟨c :: pre2, post, w, ?_, hw, hl, ?_, he⟩
      · rw [List.cons_append, List.cons_append, ← List.cons_append, heq]
        rfl
      · rw [boundaryLP_cons]
        exact hb

theorem scanPlatform_none : ∀ (s : List Char) (prev : Bool),
    scanPlatform prev s = none →
    ∀ pre mid post w, s = pre ++ mid ++ post → w ∈ platformVocab →
      lcL mid = lcL w → boundaryLP prev pre = true →
      endBoundary post = true → False := by
  intro s
  induction s with
  | nil =>
    intro prev _ pre mid post w heq hw hl _ _
    have h1 : pre ++ mid = [] ∧ post = [] := List.append_eq_nil.mp heq.symm
    have h2 : pre = [] ∧ mid = [] := List.append_eq_nil.mp h1.1
    have hwnil : w = [] := by
      have : lcL w = [] := by rw [← hl, h2.2]; rfl
      simpa [lcL] using this
    subst hwnil
    have : ∀ v ∈ platformVocab, v ≠ ([] : List Char) := by decide
    exact this [] hw rfl
  | cons c rest ih =>
    intro prev h pre mid post w heq hw hl hbl hbe
    rw [scanPlatform] at h
    cases hta : tryAt prev (c :: rest) with
    | some m2 =>
      rw [hta] at h
      exact absurd h (by simp)
    | none =>
      rw [hta] at h
      cases pre with
      | nil =>
        simp only [List.nil_append] at heq
        have hprev : prev = false := by
          cases prev
          · rfl
          · simp [boundaryLP] at hbl
        subst hprev
        rw [tryAt, if_neg (by decide)] at hta
        have hmci : matchCI w (mid ++ post) = true := matchCI_append w mid post hl
        have hlen := length_of_lcL hl
        have hdrop : (mid ++ post).drop w.length = post := by
          rw [← hlen, List.drop_left]
        rw [← heq] at hmci hdrop
        exact tryWordsAt_none _ _ hta w hw ⟨hmci, by rw [hdrop]; exact hbe⟩
      | cons c2 pre2 =>
        simp only [List.cons_append] at heq
        injection heq with hc1 hc2
        subst hc1
        rw [boundaryLP_cons] at hbl
        exact ih (wordChar c) h pre2 mid post w hc2 hw hl hbl hbe

/-- C2 counterexample: in "upi" the detector matches the vocabulary word
UPI but returns the text as matched, "upi", not the canonical "UPI". -/
theorem C2_counterexample :
    detect_platform "upi" = some "upi" ∧ ("upi" : String) ≠ "UPI" := by decide

/-- C2 amended: when the detector returns a word it is the matched text
exactly as it appears in the input (a whole-word, case-insensitive
occurrence of a vocabulary word, in the letter case of the text, not the
vocabulary's canonical form), and it returns null exactly when no
vocabulary word occurs in the text as a whole word. -/
theorem C2_amended (s : String) :
    (∀ m, detect_platform s = some m →
      ∃ pre post w, s.data = pre ++ m.data ++ post ∧ w ∈ platformVocab ∧
        lcL m.data = lcL w ∧ boundaryLP false pre = true ∧
        endBoundary post = true) ∧
    (detect_platform s = none ↔ ¬ PlatformOccurs s.data) := by
  constructor
  · intro m hm
    unfold detect_platform at hm
    cases hsc : scanPlatform false s.data with
    | none =>
      rw [hsc] at hm
      exact absurd hm (by simp)
    | some l =>
      rw [hsc] at hm
      simp only [Option.map_some'] at hm
      injection hm with hm
      obtain ⟨pre, post, w, heq, hw, hl, hb, he⟩ := scanPlatform_some _ _ _ hsc
      subst hm
      exact ⟨pre, post, w, heq, hw, hl, hb, he⟩
  · constructor
    · intro hnone hocc
      obtain ⟨pre, mid, post, w, heq, hw, hl, hb, he⟩ := hocc
      unfold detect_platform at hnone
      have hsc : scanPlatform false s.data = none := by
        cases hsc : scanPlatform false s.data with
        | none => rfl
        | some l =>
          rw [hsc] at hnone
          exact absurd hnone (by simp)
      exact scanPlatform_none s.data false hsc pre mid post w heq hw hl hb he
    · intro hno
      unfold detect_platform
      cases hsc : scanPlatform false s.data with
      | none => rfl
      | some l =>
        exfalso
        obtain ⟨pre, post, w, heq, hw, hl, hb, he⟩ := scanPlatform_some _ _ _ hsc
        exact hno ⟨pre, l, post, w, heq, hw, hl, hb, he⟩

/-- C2 witness: in "Paid via PhonePe" the returned word "PhonePe" is a
whole-word, case-insensitive occurrence of a vocabulary word. -/
theorem C2_amended_witness :
    ∃ pre post w,
      ("Paid via PhonePe" : String).data = pre ++ ("PhonePe" : String).data ++ post ∧
      w ∈ platformVocab ∧ lcL ("PhonePe" : String).data = lcL w ∧
      boundaryLP false pre = true ∧ endBoundary post = true :=
  (C2_amended "Paid via PhonePe").1 "PhonePe" (by decide)
